import Mathlib

/-!
# Verification of the VFS / position-mapping core (`lsp/src/vfs.rs`)

Shallow embedding of the virtual-filesystem and line-map core of the
language server.  Texts are byte lists (`List Nat`, each entry one byte of
the UTF-8 encoded text), machine `u32` indices are modelled as `Nat`
(every index produced by the code is bounded by the text length, which
`LineMap.normalize` caps at `u32::MAX`, so `Nat` arithmetic agrees with
the `u32` arithmetic of the source on all reachable values).

The `FileSet`, `Change` and `SourceRoot` types live in the `ide` crate,
whose source is not part of the excerpt; they are modelled from the spec
(see the doc comments below).  URI-to-path resolution
(`Vfs::uri_to_vpath`, lines 44-48 of `vfs.rs`) calls external library
code (`Url::to_file_path`, `Path::strip_prefix`); `set_uri_content`
therefore takes the resolved `Option VfsPath` (a `none` argument models a
URI that failed to resolve, mirroring the `?` on line 51).
-/

namespace NilVfs

/-- Generic list concatenation (`Vec`-of-slices flattening). -/
def flat {α : Type} : List (List α) → List α
  | [] => []
  | l :: ls => l ++ flat ls

/-- Sum of a list of naturals. -/
def sumL : List Nat → Nat
  | [] => 0
  | n :: ns => n + sumL ns

/-- `l.get(i).copied().unwrap_or(0)` of the source, on `Nat` lists. -/
def getN : List Nat → Nat → Nat
  | [], _ => 0
  | a :: _, 0 => a
  | _ :: t, n + 1 => getN t n

/-- Total list lookup with default `[]`, used for line lists. -/
def getL : List (List Nat) → Nat → List Nat
  | [], _ => []
  | a :: _, 0 => a
  | _ :: t, n + 1 => getL t n

/-- Total lookup with default `[]` on lists of chunk lists. -/
def getG : List (List (List Nat)) → Nat → List (List Nat)
  | [], _ => []
  | a :: _, 0 => a
  | _ :: t, n + 1 => getG t n

/-- Association-list lookup, modelling `HashMap::get`. -/
def alookup {α : Type} (k : Nat) : List (Nat × α) → Option α
  | [] => none
  | e :: t => if k = e.1 then some e.2 else alookup k t

/-- Number of newline bytes in a byte list. -/
def countNl : List Nat → Nat
  | [] => 0
  | b :: bs => (if b = 10 then 1 else 0) + countNl bs

/-- Last element of a list, if any. -/
def lastB : List Nat → Option Nat
  | [] => none
  | [a] => some a
  | _ :: b :: t => lastB (b :: t)

/-- The list is sorted in nondecreasing order. -/
def nonDecr : List Nat → Bool
  | [] => true
  | [_] => true
  | a :: b :: t => decide (a ≤ b) && nonDecr (b :: t)

/-- The list is sorted in strictly increasing order. -/
def strIncr : List Nat → Bool
  | [] => true
  | [_] => true
  | a :: b :: t => decide (a < b) && strIncr (b :: t)

/-! ## LineMap (vfs.rs lines 102-189) -/

/-- `text.replace('\r', "")` of `normalize` (line 121).  `0x0D` is an
ASCII byte and never occurs inside a multi-byte UTF-8 sequence, so
removing the character is the same as removing the byte. -/
def stripCR (text : List Nat) : List Nat := text.filter (fun b => b ≠ 13)

/-- One-past positions of the newline bytes:
`bytes.iter().zip(0u32..).filter(|(b, _)| **b == b'\n').map(|(_, i)| i + 1)`
(lines 126-132), scanning from absolute offset `i`. -/
def newlineStarts : List Nat → Nat → List Nat
  | [], _ => []
  | b :: bs, i =>
    if b = 10 then (i + 1) :: newlineStarts bs (i + 1) else newlineStarts bs (i + 1)

/-- The `line_starts` vector of `normalize` (lines 124-134):
`[0] ++ (newline positions + 1) ++ [text.len()]`. -/
def lineStartsOf (text : List Nat) : List Nat :=
  (0 :: newlineStarts text 0) ++ [text.length]

/-- The inner byte scan of `normalize` (lines 139-148), `p` being the
byte offset within the line: ASCII (`0x00-0x7F`) and continuation bytes
(`0x80-0xBF`) are skipped, a `0xC0-0xDF` lead byte yields diff `One`,
any `0xE0`-or-above lead byte yields diff `Two`. -/
def lineDiffs : List Nat → Nat → List (Nat × Nat)
  | [], _ => []
  | b :: bs, p =>
    if 192 ≤ b then (p, if b < 224 then 1 else 2) :: lineDiffs bs (p + 1)
    else lineDiffs bs (p + 1)

/-- The `char_diffs` loop of `normalize` (lines 136-152): for each
consecutive pair `(start, end)` of `line_starts`, scan
`bytes[start..end]` and keep the (line index, diffs) pair when the diff
list is non-empty.  The `HashMap` is modelled as an association list in
line-index order. -/
def buildCharDiffs (bytes : List Nat) : List Nat → Nat → List (Nat × List (Nat × Nat))
  | s1 :: s2 :: rest, i =>
    (if lineDiffs ((bytes.drop s1).take (s2 - s1)) 0 = [] then []
     else [(i, lineDiffs ((bytes.drop s1).take (s2 - s1)) 0)]) ++
      buildCharDiffs bytes (s2 :: rest) (i + 1)
  | _, _ => []

/-- `LineMap` (lines 102-106). -/
structure LineMap where
  line_starts : List Nat
  char_diffs : List (Nat × List (Nat × Nat))
deriving DecidableEq

/-- The `LineMap` value `normalize` builds for an (already `\r`-free) text. -/
def mkLineMap (text : List Nat) : LineMap :=
  ⟨lineStartsOf text, buildCharDiffs text (lineStartsOf text) 0⟩

/-- `LineMap::normalize` (lines 115-159): reject texts longer than
`u32::MAX` bytes, strip `\r`, and build the line map over the stripped
text. -/
def LineMap.normalize (text : List Nat) : Option (List Nat × LineMap) :=
  if text.length > 4294967295 then none
  else some (stripCR text, mkLineMap (stripCR text))

/-- The diffs the queries consult for a line: `char_diffs.get(&line)`,
with a missing entry behaving like the empty list (the `if let Some`
bodies of `pos` and `line_col` are no-ops on an empty list). -/
def LineMap.diffsFor (lm : LineMap) (line : Nat) : List (Nat × Nat) :=
  match alookup line lm.char_diffs with
  | none => []
  | some ds => ds

/-- The column adjustment loop of `pos` (lines 163-169): for each
`(char_pos, diff)` in order, if `char_pos < col` then `col += diff`. -/
def adjustFold : Nat → List (Nat × Nat) → Nat
  | col, [] => col
  | col, qd :: t => adjustFold (if qd.1 < col then col + qd.2 else col) t

/-- The subtraction amount of `line_col` (lines 181-185):
`diffs.take_while(|(char_pos, _)| char_pos < col).map(|(_, d)| d).sum()`. -/
def diffSumBelow (col : Nat) : List (Nat × Nat) → Nat
  | [] => 0
  | qd :: t => if qd.1 < col then qd.2 + diffSumBelow col t else 0

/-- `LineMap::pos` (lines 161-171) with unbounded arithmetic.  The base
is `line_starts.get(line).copied().unwrap_or(0)`.  The source computes
`col += diff` and `pos + col` in `u32`; `posU` below makes that wrapping
arithmetic explicit, and `pos` agrees with it whenever the adjusted
offset stays within `u32::MAX` (`afU_eq_af`), which holds on every input
the round-trip theorems quantify over. -/
def LineMap.pos (lm : LineMap) (line col : Nat) : Nat :=
  getN lm.line_starts line + adjustFold col (lm.diffsFor line)

/-- The column adjustment loop of `pos` with the source's `u32`
arithmetic made explicit: `col += diff as u32` wraps modulo `2^32` in
release builds (debug builds panic on the same overflow). -/
def adjustFoldU : Nat → List (Nat × Nat) → Nat
  | col, [] => col
  | col, qd :: t => adjustFoldU (if qd.1 < col then (col + qd.2) % 4294967296 else col) t

/-- `LineMap::pos` (lines 161-171) with the source's wrapping `u32`
arithmetic: the loop additions and the final `pos + col` (line 170) are
reduced modulo `2^32`. -/
def LineMap.posU (lm : LineMap) (line col : Nat) : Nat :=
  (getN lm.line_starts line + adjustFoldU col (lm.diffsFor line)) % 4294967296

/-- The length of the longest `≤ p` prefix of a list: on a sorted list
this is exactly `partition_point(|&i| i <= pos)` of `line_col`
(line 177). -/
def takeWhileLen (p : Nat) : List Nat → Nat
  | [] => 0
  | s :: t => if s ≤ p then 1 + takeWhileLen p t else 0

/-- `LineMap::line_col` (lines 173-188).  `line` is
`partition_point(..).saturating_sub(1)` (Nat subtraction saturates at 0
like `saturating_sub`); `col` is `pos - line_starts[line]` followed by
the diff subtraction, which never underflows when `p` is a codepoint
boundary (proved by the round-trip theorem), so `Nat` subtraction models
the `u32` subtraction of the source there. -/
def LineMap.line_col (lm : LineMap) (p : Nat) : Nat × Nat :=
  let line := takeWhileLen p lm.line_starts - 1
  let col := p - getN lm.line_starts line
  (line, col - diffSumBelow col (lm.diffsFor line))

/-! ## UTF-8 structure (hypotheses of the round-trip claims)

A Rust `String` is always valid UTF-8; the round-trip theorems take the
chunk decomposition of the text as a hypothesis. -/

/-- `b` is a UTF-8 continuation byte. -/
def isCont (b : Nat) : Bool := decide (128 ≤ b) && decide (b < 192)

/-- `c` is the byte sequence of one UTF-8-encoded codepoint: one ASCII
byte, or a 2-, 3- or 4-byte sequence (lead byte in `0xC0-0xDF`,
`0xE0-0xEF`, `0xF0-0xF7` respectively, followed by continuation
bytes). -/
def isUtf8Char : List Nat → Bool
  | [b] => decide (b < 128)
  | [b, c1] => decide (192 ≤ b) && decide (b < 224) && isCont c1
  | [b, c1, c2] => decide (224 ≤ b) && decide (b < 240) && isCont c1 && isCont c2
  | [b, c1, c2, c3] =>
    decide (240 ≤ b) && decide (b < 248) && isCont c1 && isCont c2 && isCont c3
  | _ => false

/-- The codepoint boundaries of a chunk decomposition: `0`, and every
prefix sum of chunk lengths (the last one is the total byte length). -/
def boundaries : List (List Nat) → List Nat
  | [] => [0]
  | c :: cs => 0 :: (boundaries cs).map (fun x => x + c.length)

/-! ## Proof-level line decomposition -/

/-- Split a byte list into lines, each line keeping its terminating
newline byte; the segment after the last newline (possibly empty) is the
final line.  `flat (splitLines bs) = bs`, and the line byte ranges are
exactly the `[line_starts[i], line_starts[i+1])` slices. -/
def splitLines : List Nat → List (List Nat)
  | [] => [[]]
  | b :: bs =>
    if b = 10 then [10] :: splitLines bs
    else
      match splitLines bs with
      | l :: ls => (b :: l) :: ls
      | [] => [[b]]

/-- The same split on a chunk decomposition: a valid chunk contains the
newline byte exactly when it is the singleton `[10]`. -/
def splitLinesC : List (List Nat) → List (List (List Nat))
  | [] => [[]]
  | c :: cs =>
    if c = [10] then [c] :: splitLinesC cs
    else
      match splitLinesC cs with
      | g :: gs => (c :: g) :: gs
      | [] => [[c]]

/-- The association list `buildCharDiffs` produces, expressed on the
line decomposition: one entry per line with a non-empty diff list. -/
def lineAssoc : List (List Nat) → Nat → List (Nat × List (Nat × Nat))
  | [], _ => []
  | l :: ls, i =>
    (if lineDiffs l 0 = [] then [] else [(i, lineDiffs l 0)]) ++ lineAssoc ls (i + 1)

/-- All prefix sums of a list, starting from `a` and including the total:
`accum 0 [n₀, n₁, …] = [0, n₀, n₀+n₁, …, total]`. -/
def accum (a : Nat) : List Nat → List Nat
  | [] => [a]
  | n :: ns => a :: accum (a + n) ns

/-! ## Vfs (vfs.rs lines 9-100) -/

/-- Modelled from the spec: `FileSet` (owned by the `ide` crate, not part
of the excerpt) is a bijection between `FileId`s and `VfsPath`s with
`insert`, `remove_file` and `get_file_for_path`; the two mirror maps are
modelled as a single association list.  `FileId` is modelled as `Nat`
(the source uses a `u32` allocated from the file-vector length, which
`alloc_file_id` aborts on overflowing) and `VfsPath` as its path string. -/
structure FileSet where
  entries : List (Nat × String)
deriving DecidableEq

/-- Find the `FileId` tracked for a path, if any. -/
def findId : List (Nat × String) → String → Option Nat
  | [], _ => none
  | e :: t, p => if e.2 = p then some e.1 else findId t p

/-- Remove every entry with the given `FileId`. -/
def removeId : List (Nat × String) → Nat → List (Nat × String)
  | [], _ => []
  | e :: t, f => if e.1 = f then removeId t f else e :: removeId t f

/-- Modelled from the spec: `FileSet::get_file_for_path`. -/
def FileSet.get_file_for_path (fs : FileSet) (p : String) : Option Nat :=
  findId fs.entries p

/-- Modelled from the spec: `FileSet::insert` (the caller guarantees the
path is not yet present). -/
def FileSet.insert (fs : FileSet) (f : Nat) (p : String) : FileSet :=
  ⟨fs.entries ++ [(f, p)]⟩

/-- Modelled from the spec: `FileSet::remove_file`. -/
def FileSet.remove_file (fs : FileSet) (f : Nat) : FileSet :=
  ⟨removeId fs.entries f⟩

/-- Modelled from the spec: `SourceRoot`, a snapshot of a `FileSet`
tagged local / non-local; `SourceRoot::new_local` tags it local. -/
structure SourceRoot where
  file_set : FileSet
  is_local : Bool
deriving DecidableEq

/-- Modelled from the spec: `SourceRoot::new_local`. -/
def SourceRoot.new_local (fs : FileSet) : SourceRoot := ⟨fs, true⟩

/-- Modelled from the spec: `Change` (the change journal) holds a
per-`FileId` overlay (multiple edits to one file collapse, keeping the
latest content) and an optional new-roots vector; `Default` is both
empty. -/
structure Change where
  file_changes : List (Nat × Option (List Nat)) := []
  roots : Option (List SourceRoot) := none
deriving DecidableEq

/-- Insert-or-replace in the overlay map (latest content wins). -/
def upsert : List (Nat × Option (List Nat)) → Nat → Option (List Nat) →
    List (Nat × Option (List Nat))
  | [], f, t => [(f, t)]
  | e :: rest, f, t => if e.1 = f then (f, t) :: rest else e :: upsert rest f t

/-- Modelled from the spec: `Change::change_file`. -/
def Change.change_file (c : Change) (f : Nat) (t : Option (List Nat)) : Change :=
  { c with file_changes := upsert c.file_changes f t }

/-- Modelled from the spec: `Change::set_roots`. -/
def Change.set_roots (c : Change) (rs : List SourceRoot) : Change :=
  { c with roots := some rs }

/-- `Vfs` (lines 9-16): the per-file slot vector, the local `FileSet`,
the roots-changed flag and the accumulated change.  `local_root` only
feeds the (externally implemented) URI resolution and is dropped. -/
structure Vfs where
  files : List (Option (List Nat × LineMap))
  local_file_set : FileSet
  root_changed : Bool
  change : Change
deriving DecidableEq

/-- `Vfs::new` (lines 28-36). -/
def Vfs.new : Vfs := ⟨[], ⟨[]⟩, false, {}⟩

/-- `Vfs::alloc_file_id` (lines 38-42): the new id is the current length
of the append-only file vector, and a fresh `None` slot is pushed. -/
def Vfs.alloc_file_id (vfs : Vfs) : Nat × Vfs :=
  (vfs.files.length, { vfs with files := vfs.files ++ [none] })

/-- `Vfs::set_uri_content` (lines 50-74), taking the resolved
`Option VfsPath` (see the module comment).  The four cases of the match
on `(existing file, normalized content)` are those of lines 54-68; note
that the `(Some, None)` tombstone case returns (line 59) without touching
`self.change`. -/
def Vfs.set_uri_content (vfs : Vfs) (vpath : Option String) (text : Option (List Nat)) :
    Option Nat × Vfs :=
  match vpath with
  | none => (none, vfs)
  | some vpath =>
    match vfs.local_file_set.get_file_for_path vpath, text.bind LineMap.normalize with
    | some file, none =>
      (none, { vfs with
        local_file_set := vfs.local_file_set.remove_file file,
        root_changed := true,
        files := vfs.files.set file none })
    | none, none => (none, vfs)
    | some file, some tl =>
      (some file, { vfs with
        change := vfs.change.change_file file (some tl.1),
        files := vfs.files.set file (some tl) })
    | none, some tl =>
      (some vfs.files.length, { vfs with
        local_file_set := vfs.local_file_set.insert vfs.files.length vpath,
        root_changed := true,
        change := vfs.change.change_file vfs.files.length (some tl.1),
        files := (vfs.files ++ [none]).set vfs.files.length (some tl) })

/-- `Vfs::take_change` (lines 88-95): `mem::take` the journal, and if the
roots changed attach a fresh local `SourceRoot` snapshot and clear the
flag. -/
def Vfs.take_change (vfs : Vfs) : Change × Vfs :=
  if vfs.root_changed then
    (vfs.change.set_roots [SourceRoot.new_local vfs.local_file_set],
     { vfs with change := {}, root_changed := false })
  else
    (vfs.change, { vfs with change := {} })

/-- Total list indexing returning `Option`. -/
def getO {α : Type} : List α → Nat → Option α
  | [], _ => none
  | a :: _, 0 => some a
  | _ :: t, n + 1 => getO t n

/-- `Vfs::get_line_map` (lines 97-99). -/
def Vfs.get_line_map (vfs : Vfs) (f : Nat) : Option LineMap :=
  match getO vfs.files f with
  | some (some tl) => some tl.2
  | _ => none

/-- Apply a sequence of `set_uri_content` calls. -/
def Vfs.applyOps (vfs : Vfs) : List (Option String × Option (List Nat)) → Vfs
  | [] => vfs
  | op :: ops => ((vfs.set_uri_content op.1 op.2).2).applyOps ops

/-- `MAX_FILE_LEN` (crates/nil/src/lib.rs lines 23-32): the documented
file-length cap, `128 MiB`. -/
def MAX_FILE_LEN : Nat := 128 <<< 20

/-- The state after opening `/a` with content `"a"` on a fresh Vfs. -/
def vfsA : Vfs := (Vfs.new.set_uri_content (some "/a") (some [97])).2

/-! ## Basic lemmas -/

theorem getN_len_le : ∀ (l : List Nat) (i : Nat), l.length ≤ i → getN l i = 0 := by
  intro l
  induction l with
  | nil => intro i _; rfl
  | cons a t ih =>
    intro i hi
    cases i with
    | zero => simp at hi
    | succ n => exact ih n (by simpa using hi)

theorem adjustFold_nil (c : Nat) : adjustFold c [] = c := rfl

theorem adjustFold_zero : ∀ ds : List (Nat × Nat), adjustFold 0 ds = 0 := by
  intro ds
  induction ds with
  | nil => rfl
  | cons qd t ih => simpa [adjustFold] using ih

theorem adjustFold_mono : ∀ (ds : List (Nat × Nat)) (c1 c2 : Nat), c1 < c2 →
    adjustFold c1 ds < adjustFold c2 ds := by
  intro ds
  induction ds with
  | nil => intro c1 c2 h; simpa [adjustFold] using h
  | cons qd t ih =>
    intro c1 c2 h
    simp only [adjustFold]
    apply ih
    split_ifs <;> omega

/-! ## Per-codepoint behaviour of the diff scan -/

theorem chunk_len {ch : List Nat} (h : isUtf8Char ch = true) :
    1 ≤ ch.length ∧ ch.length ≤ 4 := by
  match ch with
  | [] => simp [isUtf8Char] at h
  | [_] => simp
  | [_, _] => simp
  | [_, _, _] => simp
  | [_, _, _, _] => simp
  | _ :: _ :: _ :: _ :: _ :: _ => simp [isUtf8Char] at h

/-- Scanning a line, one UTF-8 chunk at a time: the lead byte of a
1-byte chunk yields nothing, of a 2-byte chunk an entry with diff 1, of
a 3- or 4-byte chunk an entry with diff 2; continuation bytes are
skipped and the scan resumes after the chunk. -/
theorem ld_chunk (ch rest : List Nat) (n : Nat) (h : isUtf8Char ch = true) :
    lineDiffs (ch ++ rest) n =
      (if ch.length = 1 then [] else [(n, if ch.length = 2 then 1 else 2)]) ++
        lineDiffs rest (n + ch.length) := by
  match ch with
  | [b] =>
    simp only [isUtf8Char, decide_eq_true_eq] at h
    have hb : ¬ 192 ≤ b := by omega
    simp [lineDiffs, hb]
  | [b, c1] =>
    simp only [isUtf8Char, isCont, Bool.and_eq_true, decide_eq_true_eq] at h
    obtain ⟨⟨hb1, hb2⟩, hc1, hc1'⟩ := h
    have h1 : ¬ 192 ≤ c1 := by omega
    simp [lineDiffs, hb1, hb2, h1]
  | [b, c1, c2] =>
    simp only [isUtf8Char, isCont, Bool.and_eq_true, decide_eq_true_eq] at h
    obtain ⟨⟨⟨hb1, hb2⟩, hc1, hc1'⟩, hc2, hc2'⟩ := h
    have hb : 192 ≤ b := by omega
    have hb' : ¬ b < 224 := by omega
    have h1 : ¬ 192 ≤ c1 := by omega
    have h2 : ¬ 192 ≤ c2 := by omega
    simp [lineDiffs, hb, hb', h1, h2]
  | [b, c1, c2, c3] =>
    simp only [isUtf8Char, isCont, Bool.and_eq_true, decide_eq_true_eq] at h
    obtain ⟨⟨⟨⟨hb1, hb2⟩, hc1, hc1'⟩, hc2, hc2'⟩, hc3, hc3'⟩ := h
    have hb : 192 ≤ b := by omega
    have hb' : ¬ b < 224 := by omega
    have h1 : ¬ 192 ≤ c1 := by omega
    have h2 : ¬ 192 ≤ c2 := by omega
    have h3 : ¬ 192 ≤ c3 := by omega
    simp [lineDiffs, hb, hb', h1, h2, h3]
  | [] => simp [isUtf8Char] at h
  | _ :: _ :: _ :: _ :: _ :: _ => simp [isUtf8Char] at h

/-- Claim C7 (amended): scanning a line, the leading byte of each
codepoint produces no entry for a 1-byte (ASCII) codepoint, an entry
with diff 1 for a 2-byte codepoint, and an entry with diff 2 for a
3-byte or 4-byte codepoint; continuation bytes produce nothing and the
scan resumes after the codepoint. -/
theorem char_diffs_values (ch rest : List Nat) (n : Nat) (h : isUtf8Char ch = true) :
    lineDiffs (ch ++ rest) n =
      (if ch.length = 1 then [] else [(n, if ch.length = 2 then 1 else 2)]) ++
        lineDiffs rest (n + ch.length) :=
  ld_chunk ch rest n h

/-- Witness for `char_diffs_values` at the 2-byte codepoint `0xC3 0x9F`. -/
theorem char_diffs_values_witness :
    isUtf8Char [195, 159] = true ∧
      lineDiffs ([195, 159] ++ [97]) 0 =
        (if [195, 159].length = 1 then []
         else [(0, if [195, 159].length = 2 then 1 else 2)]) ++
          lineDiffs [97] (0 + [195, 159].length) :=
  ⟨by decide, char_diffs_values [195, 159] [97] 0 (by decide)⟩

/-- Claim C7 counterexample: the 3-byte codepoint `ℝ` (`0xE2 0x84 0x9D`)
is stored in `char_diffs` with diff 2, not diff 1 as the claim states. -/
theorem char_diffs_three_byte_cex :
    isUtf8Char [226, 132, 157] = true ∧ [226, 132, 157].length = 3 ∧
      LineMap.normalize [226, 132, 157] =
        some ([226, 132, 157], ⟨[0, 3], [(0, [(0, 2)])]⟩) ∧
      (mkLineMap [226, 132, 157]).char_diffs ≠ [(0, [(0, 1)])] := by
  refine ⟨by decide, by decide, by decide, by decide⟩

/-! ## Normalize structure -/

theorem normalize_some {text tn : List Nat} {lm : LineMap}
    (h : LineMap.normalize text = some (tn, lm)) :
    tn = stripCR text ∧ lm = mkLineMap (stripCR text) ∧ text.length ≤ 4294967295 := by
  unfold LineMap.normalize at h
  split at h
  · simp at h
  · rename_i hlen
    simp only [Option.some.injEq, Prod.mk.injEq] at h
    exact ⟨h.1.symm, h.2.symm, by omega⟩

/-- Keys produced by `buildCharDiffs bytes starts i` are below
`i + starts.length - 1`; any larger line index misses. -/
theorem bcd_key_none : ∀ (starts : List Nat) (bytes : List Nat) (i j : Nat),
    i + starts.length ≤ j + 1 → alookup j (buildCharDiffs bytes starts i) = none := by
  intro starts
  induction starts with
  | nil => intro bytes i j _; rfl
  | cons s1 t ih =>
    intro bytes i j hij
    cases t with
    | nil => rfl
    | cons s2 rest =>
      have hj : ¬ (j = i) := by simp at hij; omega
      simp only [buildCharDiffs]
      split
      · simpa using ih bytes (i + 1) j (by simp at hij ⊢; omega)
      · simp only [List.singleton_append, alookup, hj, if_false]
        exact ih bytes (i + 1) j (by simp at hij ⊢; omega)

/-- Claim C8 (amended): for a line index at or beyond the end of
`line_starts`, `pos` falls back to base offset 0 and no diff adjustment
applies, so it returns the column itself (`0 + col`), not 0. -/
theorem pos_line_out_of_range (text tn : List Nat) (lm : LineMap)
    (hn : LineMap.normalize text = some (tn, lm)) (line col : Nat)
    (hline : lm.line_starts.length ≤ line) :
    lm.pos line col = col := by
  obtain ⟨-, hlm, -⟩ := normalize_some hn
  subst hlm
  have hstarts : (mkLineMap (stripCR text)).line_starts = lineStartsOf (stripCR text) := rfl
  have hkey : alookup line (mkLineMap (stripCR text)).char_diffs = none := by
    apply bcd_key_none
    rw [hstarts] at hline
    omega
  simp [LineMap.pos, LineMap.diffsFor, hkey, adjustFold_nil,
    getN_len_le _ _ hline]

/-- Claim C8 counterexample: on the map of `"hello"` (a single line,
`line_starts = [0, 5]`), `pos 99 5` is `5`, not `0`. -/
theorem pos_line_out_of_range_cex :
    LineMap.normalize [104, 101, 108, 108, 111] =
        some ([104, 101, 108, 108, 111], mkLineMap [104, 101, 108, 108, 111]) ∧
      (mkLineMap [104, 101, 108, 108, 111]).line_starts.length ≤ 99 ∧
      (mkLineMap [104, 101, 108, 108, 111]).pos 99 5 = 5 ∧
      (mkLineMap [104, 101, 108, 108, 111]).pos 99 5 ≠ 0 := by
  refine ⟨by decide, by decide, by decide, by decide⟩

/-- Witness for `pos_line_out_of_range` at the map of `"hello"`. -/
theorem pos_line_out_of_range_witness :
    (mkLineMap [104, 101, 108, 108, 111]).pos 99 7 = 7 :=
  pos_line_out_of_range [104, 101, 108, 108, 111] [104, 101, 108, 108, 111]
    (mkLineMap [104, 101, 108, 108, 111]) (by decide) 99 7 (by decide)

theorem af_le : ∀ (ds : List (Nat × Nat)) (c : Nat), c ≤ adjustFold c ds := by
  intro ds
  induction ds with
  | nil => intro c; exact le_rfl
  | cons qd t ih =>
    intro c
    simp only [adjustFold]
    by_cases hq : qd.1 < c
    · rw [if_pos hq]
      have := ih (c + qd.2)
      omega
    · rw [if_neg hq]
      exact ih c

/-- Below the `u32` wrap, the wrapping adjustment loop agrees with the
unbounded one: the running column only grows along the fold, so if the
final value fits in `u32` no intermediate addition overflows. -/
theorem afU_eq_af : ∀ (ds : List (Nat × Nat)) (c : Nat),
    adjustFold c ds ≤ 4294967295 → adjustFoldU c ds = adjustFold c ds := by
  intro ds
  induction ds with
  | nil => intro c _; rfl
  | cons qd t ih =>
    intro c hb
    by_cases hq : qd.1 < c
    · have hb' : adjustFold (c + qd.2) t ≤ 4294967295 := by
        simpa only [adjustFold, if_pos hq] using hb
      have hle := af_le t (c + qd.2)
      have hmod : (c + qd.2) % 4294967296 = c + qd.2 := Nat.mod_eq_of_lt (by omega)
      calc adjustFoldU c (qd :: t) = adjustFoldU (c + qd.2) t := by
            simp only [adjustFoldU, if_pos hq, hmod]
        _ = adjustFold (c + qd.2) t := ih (c + qd.2) hb'
        _ = adjustFold c (qd :: t) := by simp only [adjustFold, if_pos hq]
    · have hb' : adjustFold c t ≤ 4294967295 := by
        simpa only [adjustFold, if_neg hq] using hb
      calc adjustFoldU c (qd :: t) = adjustFoldU c t := by
            simp only [adjustFoldU, if_neg hq]
        _ = adjustFold c t := ih c hb'
        _ = adjustFold c (qd :: t) := by simp only [adjustFold, if_neg hq]

/-- Claim C10 (amended): on every `LineMap` and every fixed line, `pos`
(with the source's wrapping `u32` arithmetic made explicit) is strictly
monotone in the column as long as no `u32` overflow occurs: for all
`c1 < c2` whose fully adjusted byte offset stays within `u32::MAX`,
`pos(line, c1) < pos(line, c2)`.  The guard is necessary: at the wrap
boundary monotonicity fails (see `pos_wrap_cex`; debug builds panic on
the same inputs). -/
theorem pos_strict_mono_col_u (lm : LineMap) (line c1 c2 : Nat) (h : c1 < c2)
    (hbound : getN lm.line_starts line + adjustFold c2 (lm.diffsFor line) ≤ 4294967295) :
    lm.posU line c1 < lm.posU line c2 := by
  have hmono := adjustFold_mono (lm.diffsFor line) c1 c2 h
  have h2 : adjustFold c2 (lm.diffsFor line) ≤ 4294967295 := by omega
  have h1 : adjustFold c1 (lm.diffsFor line) ≤ 4294967295 := by omega
  unfold LineMap.posU
  rw [afU_eq_af _ _ h1, afU_eq_af _ _ h2]
  have e1 : (getN lm.line_starts line + adjustFold c1 (lm.diffsFor line)) % 4294967296 =
      getN lm.line_starts line + adjustFold c1 (lm.diffsFor line) :=
    Nat.mod_eq_of_lt (by omega)
  have e2 : (getN lm.line_starts line + adjustFold c2 (lm.diffsFor line)) % 4294967296 =
      getN lm.line_starts line + adjustFold c2 (lm.diffsFor line) :=
    Nat.mod_eq_of_lt (by omega)
  rw [e1, e2]
  omega

/-- Claim C10 counterexample: on the map of `"ß"` (one line,
`char_diffs = [(0, [(0, 1)])]`), the source's `u32` arithmetic wraps:
`pos(0, 2^32 - 2)` is `4294967295` but `pos(0, 2^32 - 1)` wraps to `0`
(debug builds panic on the same addition), so `pos` is not strictly
monotone in the column at `c1 = 2^32 - 2 < c2 = 2^32 - 1`. -/
theorem pos_wrap_cex :
    LineMap.normalize [195, 159] = some ([195, 159], mkLineMap [195, 159]) ∧
      (4294967294 : Nat) < 4294967295 ∧
      (mkLineMap [195, 159]).posU 0 4294967294 = 4294967295 ∧
      (mkLineMap [195, 159]).posU 0 4294967295 = 0 ∧
      ¬((mkLineMap [195, 159]).posU 0 4294967294 <
          (mkLineMap [195, 159]).posU 0 4294967295) := by
  refine ⟨by decide, by decide, by decide, by decide, by decide⟩

/-- Witness for `pos_strict_mono_col_u` on the map of `"ß"`, at columns
0 < 1, where the adjusted offset stays far below `u32::MAX`. -/
theorem pos_strict_mono_col_u_witness :
    (mkLineMap [195, 159]).posU 0 0 < (mkLineMap [195, 159]).posU 0 1 :=
  pos_strict_mono_col_u (mkLineMap [195, 159]) 0 0 1 (by decide) (by decide)

/-! ## Branch lemmas for `set_uri_content` -/

theorem suc_none (vfs : Vfs) (text : Option (List Nat)) :
    vfs.set_uri_content none text = (none, vfs) := rfl

theorem suc_close (vfs : Vfs) (p : String) (f : Nat)
    (hf : vfs.local_file_set.get_file_for_path p = some f) :
    vfs.set_uri_content (some p) none =
      (none, { vfs with
        local_file_set := vfs.local_file_set.remove_file f,
        root_changed := true,
        files := vfs.files.set f none }) := by
  unfold Vfs.set_uri_content
  simp only [hf, Option.bind]

theorem suc_reject (vfs : Vfs) (p : String) (f : Nat) (t : List Nat)
    (hf : vfs.local_file_set.get_file_for_path p = some f)
    (hn : LineMap.normalize t = none) :
    vfs.set_uri_content (some p) (some t) =
      (none, { vfs with
        local_file_set := vfs.local_file_set.remove_file f,
        root_changed := true,
        files := vfs.files.set f none }) := by
  unfold Vfs.set_uri_content
  simp only [hf, Option.bind, hn]

theorem suc_nothing (vfs : Vfs) (p : String)
    (hf : vfs.local_file_set.get_file_for_path p = none) :
    vfs.set_uri_content (some p) none = (none, vfs) := by
  unfold Vfs.set_uri_content
  simp only [hf, Option.bind]

theorem suc_nothing_reject (vfs : Vfs) (p : String) (t : List Nat)
    (hf : vfs.local_file_set.get_file_for_path p = none)
    (hn : LineMap.normalize t = none) :
    vfs.set_uri_content (some p) (some t) = (none, vfs) := by
  unfold Vfs.set_uri_content
  simp only [hf, Option.bind, hn]

theorem suc_update (vfs : Vfs) (p : String) (f : Nat) (t : List Nat)
    (tl : List Nat × LineMap)
    (hf : vfs.local_file_set.get_file_for_path p = some f)
    (hn : LineMap.normalize t = some tl) :
    vfs.set_uri_content (some p) (some t) =
      (some f, { vfs with
        change := vfs.change.change_file f (some tl.1),
        files := vfs.files.set f (some tl) }) := by
  unfold Vfs.set_uri_content
  simp only [hf, Option.bind, hn]

theorem suc_insert (vfs : Vfs) (p : String) (t : List Nat)
    (tl : List Nat × LineMap)
    (hf : vfs.local_file_set.get_file_for_path p = none)
    (hn : LineMap.normalize t = some tl) :
    vfs.set_uri_content (some p) (some t) =
      (some vfs.files.length, { vfs with
        local_file_set := vfs.local_file_set.insert vfs.files.length p,
        root_changed := true,
        change := vfs.change.change_file vfs.files.length (some tl.1),
        files := (vfs.files ++ [none]).set vfs.files.length (some tl) }) := by
  unfold Vfs.set_uri_content
  simp only [hf, Option.bind, hn]

/-! ## Tombstoning (claim C1) -/

/-- Claim C1 (amended): `set_uri_content` on a tracked path with absent
text tombstones the file — it removes the `FileId` from the `FileSet`,
clears the per-file slot, marks roots-changed and returns `None` — but
records nothing in the `ChangeJournal` (the `(Some, None)` arm returns
on line 59 before the `change_file` call on line 71). -/
theorem tombstone_no_journal (vfs : Vfs) (p : String) (f : Nat)
    (hf : vfs.local_file_set.get_file_for_path p = some f) :
    vfs.set_uri_content (some p) none =
      (none, { vfs with
        local_file_set := vfs.local_file_set.remove_file f,
        root_changed := true,
        files := vfs.files.set f none }) :=
  suc_close vfs p f hf

/-- Claim C1 counterexample: after opening `/a` and then tombstoning it,
the journal still holds only the `file→Some "a"` entry from the open —
no `file→None` entry was recorded for the removal. -/
theorem tombstone_journal_cex :
    vfsA.local_file_set.get_file_for_path "/a" = some 0 ∧
      ((vfsA.set_uri_content (some "/a") none).2).change.file_changes = [(0, some [97])] ∧
      (0, (none : Option (List Nat))) ∉
        ((vfsA.set_uri_content (some "/a") none).2).change.file_changes := by
  refine ⟨by decide, by decide, by decide⟩

/-- Witness for `tombstone_no_journal` on `vfsA`. -/
theorem tombstone_no_journal_witness :
    vfsA.set_uri_content (some "/a") none =
      (none, { vfsA with
        local_file_set := vfsA.local_file_set.remove_file 0,
        root_changed := true,
        files := vfsA.files.set 0 none }) :=
  tombstone_no_journal vfsA "/a" 0 (by decide)

/-! ## The size cap (claim C2) -/

/-- Claim C2 (code bug): a text of `MAX_FILE_LEN + 1` bytes — larger than
the documented 128 MiB cap but not larger than `u32::MAX` — is accepted
by ingestion: `set_uri_content` allocates a file and returns
`Some(FileId)` for it, because `normalize` (vfs.rs line 117) only checks
the `u32::MAX` bound and nothing applies `MAX_FILE_LEN`, contradicting
the constant's own documentation ("Files larger than this will be
rejected from all interactions"). -/
theorem max_file_len_eq : MAX_FILE_LEN = 134217728 := by
  unfold MAX_FILE_LEN
  rw [Nat.shiftLeft_eq]

theorem overlarge_text_accepted :
    MAX_FILE_LEN < (List.replicate (MAX_FILE_LEN + 1) 97).length ∧
      (Vfs.new.set_uri_content (some "/a") (some (List.replicate (MAX_FILE_LEN + 1) 97))).1 =
        some 0 := by
  constructor
  · simp
  · have hn : LineMap.normalize (List.replicate (MAX_FILE_LEN + 1) 97) =
        some (stripCR (List.replicate (MAX_FILE_LEN + 1) 97),
          mkLineMap (stripCR (List.replicate (MAX_FILE_LEN + 1) 97))) := by
      unfold LineMap.normalize
      rw [if_neg]
      simp only [List.length_replicate, max_file_len_eq]
      omega
    rw [suc_insert Vfs.new "/a" _ _ rfl hn]
    rfl

/-! ## CR stripping (claim C9) -/

/-- Claim C9: ingestion strips every `\r` (byte 13) before storing: the
stored text of a normalized file is the input with all 13-bytes removed
and contains none; in particular ingesting `"a\r\nb"` stores `"a\nb"`
(bytes `[97, 10, 98]`) in the file slot, and position `(1, 0)` maps to
byte offset 2 through the resulting `LineMap`. -/
theorem ingest_strips_cr :
    (∀ text tn : List Nat, ∀ lm : LineMap,
      LineMap.normalize text = some (tn, lm) →
        tn = stripCR text ∧ 13 ∉ tn) ∧
      (Vfs.new.set_uri_content (some "/a") (some [97, 13, 10, 98])).2.files =
        [some ([97, 10, 98], mkLineMap [97, 10, 98])] ∧
      (mkLineMap [97, 10, 98]).pos 1 0 = 2 := by
  refine ⟨?_, by decide, by decide⟩
  intro text tn lm hn
  obtain ⟨htn, -, -⟩ := normalize_some hn
  subst htn
  refine ⟨rfl, ?_⟩
  simp [stripCR]

/-- Witness for `ingest_strips_cr` at the text `"a\r\nb"`. -/
theorem ingest_strips_cr_witness :
    [97, 10, 98] = stripCR [97, 13, 10, 98] ∧ 13 ∉ ([97, 10, 98] : List Nat) :=
  ingest_strips_cr.1 [97, 13, 10, 98] [97, 10, 98] (mkLineMap [97, 10, 98]) (by decide)

/-! ## Case analysis and preservation lemmas for `set_uri_content` -/

theorem removeId_mem : ∀ (l : List (Nat × String)) (f : Nat) (e : Nat × String),
    e ∈ removeId l f → e ∈ l ∧ e.1 ≠ f := by
  intro l f
  induction l with
  | nil => intro e h; simp [removeId] at h
  | cons a t ih =>
    intro e h
    simp only [removeId] at h
    split at h
    · exact ⟨List.mem_cons_of_mem _ (ih e h).1, (ih e h).2⟩
    · rename_i hne
      rcases List.mem_cons.mp h with h1 | h2
      · subst h1; exact ⟨List.mem_cons_self _ _, hne⟩
      · exact ⟨List.mem_cons_of_mem _ (ih e h2).1, (ih e h2).2⟩

theorem findId_mem : ∀ (l : List (Nat × String)) (p : String) (f : Nat),
    findId l p = some f → (f, p) ∈ l := by
  intro l p f
  induction l with
  | nil => intro h; simp [findId] at h
  | cons a t ih =>
    intro h
    simp only [findId] at h
    split at h
    · rename_i hp
      simp only [Option.some.injEq] at h
      have : a = (f, p) := by
        obtain ⟨a1, a2⟩ := a
        simp_all
      rw [← this]
      exact List.mem_cons_self _ _
    · exact List.mem_cons_of_mem _ (ih h)

theorem suc_cases (vfs : Vfs) (vp : Option String) (t : Option (List Nat)) :
    (vfs.set_uri_content vp t = (none, vfs)) ∨
    (∃ f p, vfs.local_file_set.get_file_for_path p = some f ∧
      vfs.set_uri_content vp t =
        (none, { vfs with
          local_file_set := vfs.local_file_set.remove_file f,
          root_changed := true,
          files := vfs.files.set f none })) ∨
    (∃ f p tl, vfs.local_file_set.get_file_for_path p = some f ∧
      vfs.set_uri_content vp t =
        (some f, { vfs with
          change := vfs.change.change_file f (some tl.1),
          files := vfs.files.set f (some tl) })) ∨
    (∃ p tl, vfs.local_file_set.get_file_for_path p = none ∧
      vfs.set_uri_content vp t =
        (some vfs.files.length, { vfs with
          local_file_set := vfs.local_file_set.insert vfs.files.length p,
          root_changed := true,
          change := vfs.change.change_file vfs.files.length (some tl.1),
          files := (vfs.files ++ [none]).set vfs.files.length (some tl) })) := by
  match vp with
  | none => exact Or.inl (suc_none vfs t)
  | some p =>
    match t with
    | none =>
      cases hf : vfs.local_file_set.get_file_for_path p with
      | some f => exact Or.inr (Or.inl ⟨f, p, hf, suc_close vfs p f hf⟩)
      | none => exact Or.inl (suc_nothing vfs p hf)
    | some tx =>
      cases hf : vfs.local_file_set.get_file_for_path p with
      | some f =>
        cases hn : LineMap.normalize tx with
        | none => exact Or.inr (Or.inl ⟨f, p, hf, suc_reject vfs p f tx hf hn⟩)
        | some tl =>
          exact Or.inr (Or.inr (Or.inl ⟨f, p, tl, hf, suc_update vfs p f tx tl hf hn⟩))
      | none =>
        cases hn : LineMap.normalize tx with
        | none => exact Or.inl (suc_nothing_reject vfs p tx hf hn)
        | some tl => exact Or.inr (Or.inr (Or.inr ⟨p, tl, hf, suc_insert vfs p tx tl hf hn⟩))

theorem suc_roots (vfs : Vfs) (vp : Option String) (t : Option (List Nat)) :
    ((vfs.set_uri_content vp t).2).change.roots = vfs.change.roots := by
  rcases suc_cases vfs vp t with h | ⟨f, p, _, h⟩ | ⟨f, p, tl, _, h⟩ | ⟨p, tl, _, h⟩ <;>
    rw [h] <;> rfl

theorem suc_flag_mono (vfs : Vfs) (vp : Option String) (t : Option (List Nat))
    (h : vfs.root_changed = true) :
    ((vfs.set_uri_content vp t).2).root_changed = true := by
  rcases suc_cases vfs vp t with hc | ⟨f, p, _, hc⟩ | ⟨f, p, tl, _, hc⟩ | ⟨p, tl, _, hc⟩ <;>
    rw [hc] <;> simpa using h

theorem suc_flag_false (vfs : Vfs) (vp : Option String) (t : Option (List Nat))
    (h : ((vfs.set_uri_content vp t).2).root_changed = false) :
    ((vfs.set_uri_content vp t).2).local_file_set = vfs.local_file_set := by
  rcases suc_cases vfs vp t with hc | ⟨f, p, _, hc⟩ | ⟨f, p, tl, _, hc⟩ | ⟨p, tl, _, hc⟩ <;>
    rw [hc] at h ⊢ <;> first | rfl | simp at h

theorem suc_len_mono (vfs : Vfs) (vp : Option String) (t : Option (List Nat)) :
    vfs.files.length ≤ ((vfs.set_uri_content vp t).2).files.length := by
  rcases suc_cases vfs vp t with hc | ⟨f, p, _, hc⟩ | ⟨f, p, tl, _, hc⟩ | ⟨p, tl, _, hc⟩ <;>
    rw [hc] <;> simp

theorem suc_WF (vfs : Vfs) (vp : Option String) (t : Option (List Nat))
    (h : ∀ e ∈ vfs.local_file_set.entries, e.1 < vfs.files.length) :
    ∀ e ∈ ((vfs.set_uri_content vp t).2).local_file_set.entries,
      e.1 < ((vfs.set_uri_content vp t).2).files.length := by
  rcases suc_cases vfs vp t with hc | ⟨f, p, _, hc⟩ | ⟨f, p, tl, _, hc⟩ | ⟨p, tl, _, hc⟩ <;>
    rw [hc]
  · exact h
  · intro e he
    simp only [FileSet.remove_file] at he
    simpa using h e (removeId_mem vfs.local_file_set.entries f e he).1
  · intro e he
    simpa using h e he
  · intro e he
    simp only [FileSet.insert] at he
    rcases List.mem_append.mp he with h1 | h2
    · have := h e h1
      simp
      omega
    · simp at h2
      simp [h2]

theorem applyOps_roots (ops : List (Option String × Option (List Nat))) :
    ∀ vfs : Vfs, (vfs.applyOps ops).change.roots = vfs.change.roots := by
  induction ops with
  | nil => intro vfs; rfl
  | cons op rest ih =>
    intro vfs
    simp only [Vfs.applyOps]
    rw [ih, suc_roots]

theorem applyOps_flag_mono (ops : List (Option String × Option (List Nat))) :
    ∀ vfs : Vfs, vfs.root_changed = true → (vfs.applyOps ops).root_changed = true := by
  induction ops with
  | nil => intro vfs h; exact h
  | cons op rest ih =>
    intro vfs h
    exact ih _ (suc_flag_mono vfs op.1 op.2 h)

theorem applyOps_flag_false (ops : List (Option String × Option (List Nat))) :
    ∀ vfs : Vfs, (vfs.applyOps ops).root_changed = false →
      (vfs.applyOps ops).local_file_set = vfs.local_file_set := by
  induction ops with
  | nil => intro vfs _; rfl
  | cons op rest ih =>
    intro vfs h
    simp only [Vfs.applyOps] at h ⊢
    have hstep : ((vfs.set_uri_content op.1 op.2).2).root_changed = false := by
      by_cases hs : ((vfs.set_uri_content op.1 op.2).2).root_changed = true
      · rw [applyOps_flag_mono rest _ hs] at h
        simp at h
      · simpa using hs
    rw [ih _ h, suc_flag_false _ _ _ hstep]

theorem applyOps_len_mono (ops : List (Option String × Option (List Nat))) :
    ∀ vfs : Vfs, vfs.files.length ≤ (vfs.applyOps ops).files.length := by
  induction ops with
  | nil => intro vfs; exact le_rfl
  | cons op rest ih =>
    intro vfs
    exact le_trans (suc_len_mono vfs op.1 op.2) (ih _)

theorem applyOps_WF (ops : List (Option String × Option (List Nat))) :
    ∀ vfs : Vfs, (∀ e ∈ vfs.local_file_set.entries, e.1 < vfs.files.length) →
      ∀ e ∈ (vfs.applyOps ops).local_file_set.entries,
        e.1 < (vfs.applyOps ops).files.length := by
  induction ops with
  | nil => intro vfs h; exact h
  | cons op rest ih =>
    intro vfs h
    exact ih _ (suc_WF vfs op.1 op.2 h)

/-! ## Drain semantics (claim C5) -/

theorem tc_true (vfs : Vfs) (h : vfs.root_changed = true) :
    vfs.take_change =
      (vfs.change.set_roots [SourceRoot.new_local vfs.local_file_set],
       { vfs with change := {}, root_changed := false }) := by
  unfold Vfs.take_change
  rw [h]
  simp

theorem tc_false (vfs : Vfs) (h : vfs.root_changed = false) :
    vfs.take_change = (vfs.change, { vfs with change := {} }) := by
  unfold Vfs.take_change
  rw [h]
  simp

theorem vfs_change_eta (vfs : Vfs) (h : vfs.change = {}) :
    { vfs with change := {} } = vfs := by
  cases vfs with
  | mk fi fs rc ch =>
    simp only at h
    rw [h]

theorem tc_drained (vfs : Vfs) (hc : vfs.change = {}) (hr : vfs.root_changed = false) :
    vfs.take_change = ({}, vfs) := by
  rw [tc_false _ hr, hc, vfs_change_eta _ hc]

/-- Claim C5 (amended): `take_change` returns the accumulated `Change`
(same journal entries) and empties the journal; the returned `Change`
carries a fresh source-root set — a snapshot of the current `FileSet` —
exactly when the roots-changed flag is set, which happens whenever some
operation since the previous drain changed `FileSet` membership (in
particular whenever the final membership differs from the membership at
the previous drain, though the flag also stays set when an addition was
later reverted by a removal); the flag is cleared, so an immediately
repeated `take_change` returns an empty `Change` with no roots. -/
theorem take_change_drain (vfs0 : Vfs) (ops : List (Option String × Option (List Nat)))
    (h0 : vfs0.change = {}) (h1 : vfs0.root_changed = false) :
    ((vfs0.applyOps ops).take_change).1.file_changes =
        (vfs0.applyOps ops).change.file_changes ∧
      ((vfs0.applyOps ops).take_change).1.roots =
        (if (vfs0.applyOps ops).root_changed then
          some [SourceRoot.new_local (vfs0.applyOps ops).local_file_set] else none) ∧
      ((vfs0.applyOps ops).take_change).2.change = {} ∧
      ((vfs0.applyOps ops).take_change).2.root_changed = false ∧
      (((vfs0.applyOps ops).take_change).2).take_change =
        ({}, ((vfs0.applyOps ops).take_change).2) ∧
      ((vfs0.applyOps ops).local_file_set ≠ vfs0.local_file_set →
        ((vfs0.applyOps ops).take_change).1.roots =
          some [SourceRoot.new_local (vfs0.applyOps ops).local_file_set]) := by
  by_cases hr : (vfs0.applyOps ops).root_changed
  · rw [tc_true _ hr, if_pos hr]
    refine ⟨rfl, rfl, rfl, rfl, ?_, fun _ => rfl⟩
    exact tc_drained _ rfl rfl
  · have hr' : (vfs0.applyOps ops).root_changed = false := by simpa using hr
    rw [tc_false _ hr', if_neg hr]
    have hroots : (vfs0.applyOps ops).change.roots = none := by
      rw [applyOps_roots, h0]
    refine ⟨rfl, hroots, rfl, hr', ?_, ?_⟩
    · exact tc_drained _ rfl hr'
    · intro hne
      exact absurd (applyOps_flag_false ops vfs0 hr') hne

/-- Claim C5 counterexample: from a freshly drained state, opening a new
path and immediately closing it restores the original `FileSet`
membership, yet the drained `Change` still carries a fresh source-root
set — roots are attached even though membership did not change since the
previous drain. -/
theorem take_change_roots_iff_cex :
    (Vfs.new.applyOps [(some "/a", some [97]), (some "/a", none)]).local_file_set =
        Vfs.new.local_file_set ∧
      Vfs.new.change = {} ∧ Vfs.new.root_changed = false ∧
      ((Vfs.new.applyOps [(some "/a", some [97]), (some "/a", none)]).take_change).1.roots =
        some [SourceRoot.new_local
          (Vfs.new.applyOps [(some "/a", some [97]), (some "/a", none)]).local_file_set] := by
  refine ⟨by decide, by decide, by decide, by decide⟩

/-- Witness for `take_change_drain`: a drain after a single open. -/
theorem take_change_drain_witness :
    ((Vfs.new.applyOps [(some "/a", some [97])]).take_change).1.file_changes =
      (Vfs.new.applyOps [(some "/a", some [97])]).change.file_changes :=
  (take_change_drain Vfs.new [(some "/a", some [97])] rfl rfl).1

/-! ## FileId freshness (claim C6) -/

theorem suc_J (vfs : Vfs) (f : Nat) (vp : Option String) (t : Option (List Nat))
    (h1 : ∀ e ∈ vfs.local_file_set.entries, e.1 ≠ f)
    (h2 : f < vfs.files.length) :
    (∀ e ∈ ((vfs.set_uri_content vp t).2).local_file_set.entries, e.1 ≠ f) ∧
      f < ((vfs.set_uri_content vp t).2).files.length := by
  rcases suc_cases vfs vp t with hc | ⟨g, p, _, hc⟩ | ⟨g, p, tl, _, hc⟩ | ⟨p, tl, _, hc⟩ <;>
    rw [hc]
  · exact ⟨h1, h2⟩
  · refine ⟨?_, by simpa using h2⟩
    intro e he
    simp only [FileSet.remove_file] at he
    exact h1 e (removeId_mem _ g e he).1
  · exact ⟨h1, by simpa using h2⟩
  · refine ⟨?_, by simp; omega⟩
    intro e he
    simp only [FileSet.insert] at he
    rcases List.mem_append.mp he with ha | hb
    · exact h1 e ha
    · simp at hb
      simp [hb]
      omega

theorem applyOps_J (ops : List (Option String × Option (List Nat))) (f : Nat) :
    ∀ vfs : Vfs, (∀ e ∈ vfs.local_file_set.entries, e.1 ≠ f) → f < vfs.files.length →
      (∀ e ∈ (vfs.applyOps ops).local_file_set.entries, e.1 ≠ f) ∧
        f < (vfs.applyOps ops).files.length := by
  induction ops with
  | nil => intro vfs h1 h2; exact ⟨h1, h2⟩
  | cons op rest ih =>
    intro vfs h1 h2
    obtain ⟨g1, g2⟩ := suc_J vfs f op.1 op.2 h1 h2
    exact ih _ g1 g2

/-- Claim C6: `FileId`s are never reused.  Allocation returns the current
length of the append-only per-file vector; the vector only grows; every
tracked `FileId` is a valid index into it (and stays valid since the
vector never shrinks); and after tombstoning a tracked path, re-opening
the same path — after any further sequence of operations — yields a
`FileId` distinct from the original. -/
theorem file_id_never_reused (vfs : Vfs)
    (hWF : ∀ e ∈ vfs.local_file_set.entries, e.1 < vfs.files.length)
    (p : String) (f : Nat)
    (hf : vfs.local_file_set.get_file_for_path p = some f) :
    (∀ q t tl, vfs.local_file_set.get_file_for_path q = none →
      LineMap.normalize t = some tl →
      (vfs.set_uri_content (some q) (some t)).1 = some vfs.files.length) ∧
      (∀ ops, vfs.files.length ≤ (vfs.applyOps ops).files.length) ∧
      (∀ ops, ∀ e ∈ (vfs.applyOps ops).local_file_set.entries,
        e.1 < (vfs.applyOps ops).files.length) ∧
      (∀ ops t f',
        ((((vfs.set_uri_content (some p) none).2).applyOps ops).set_uri_content
            (some p) (some t)).1 = some f' → f' ≠ f) := by
  refine ⟨?_, ?_, ?_, ?_⟩
  · intro q t tl hq hn
    rw [suc_insert vfs q t tl hq hn]
  · intro ops
    exact applyOps_len_mono ops vfs
  · intro ops
    exact applyOps_WF ops vfs hWF
  · intro ops t f' hret
    have hJ1a : ∀ e ∈ ((vfs.set_uri_content (some p) none).2).local_file_set.entries,
        e.1 ≠ f := by
      rw [suc_close vfs p f hf]
      intro e he
      simp only [FileSet.remove_file] at he
      exact (removeId_mem _ f e he).2
    have hJ1b : f < ((vfs.set_uri_content (some p) none).2).files.length := by
      rw [suc_close vfs p f hf]
      simpa using hWF (f, p) (findId_mem _ _ _ hf)
    obtain ⟨hJ2a, hJ2b⟩ := applyOps_J ops f _ hJ1a hJ1b
    cases hq : (((vfs.set_uri_content (some p) none).2).applyOps ops).local_file_set.get_file_for_path p with
    | some f2 =>
      cases hn2 : LineMap.normalize t with
      | none =>
        rw [suc_reject _ p f2 t hq hn2] at hret
        simp at hret
      | some tl =>
        rw [suc_update _ p f2 t tl hq hn2] at hret
        simp only [Option.some.injEq] at hret
        rw [← hret]
        exact hJ2a (f2, p) (findId_mem _ _ _ hq)
    | none =>
      cases hn2 : LineMap.normalize t with
      | none =>
        rw [suc_nothing_reject _ p t hq hn2] at hret
        simp at hret
      | some tl =>
        rw [suc_insert _ p t tl hq hn2] at hret
        simp only [Option.some.injEq] at hret
        omega

/-- Witness for `file_id_never_reused`: on a Vfs tracking `/a` as file 0,
closing `/a` and re-opening it yields file 1 ≠ 0. -/
theorem file_id_never_reused_witness :
    ((((vfsA.set_uri_content (some "/a") none).2).applyOps []).set_uri_content
        (some "/a") (some [98])).1 = some 1 ∧ (1 : Nat) ≠ 0 :=
  ⟨by decide,
   (file_id_never_reused vfsA (by decide) "/a" 0 (by decide)).2.2.2 [] [98] 1 (by decide)⟩

/-! ## Shape of `line_starts` (claim C4) -/

theorem nls_succ : ∀ (bs : List Nat) (n : Nat),
    newlineStarts bs (n + 1) = (newlineStarts bs n).map (· + 1) := by
  intro bs
  induction bs with
  | nil => intro n; rfl
  | cons b t ih =>
    intro n
    by_cases hb : b = 10 <;> simp [newlineStarts, hb, ih (n + 1)]

theorem nls_length : ∀ (bs : List Nat) (n : Nat),
    (newlineStarts bs n).length = countNl bs := by
  intro bs
  induction bs with
  | nil => intro n; rfl
  | cons b t ih =>
    intro n
    by_cases hb : b = 10 <;> simp [newlineStarts, countNl, hb, ih (n + 1)] <;> omega

theorem nls_bounds : ∀ (bs : List Nat) (n : Nat), ∀ x ∈ newlineStarts bs n,
    n + 1 ≤ x ∧ x ≤ n + bs.length := by
  intro bs
  induction bs with
  | nil => intro n x hx; simp [newlineStarts] at hx
  | cons b t ih =>
    intro n x hx
    simp only [newlineStarts] at hx
    split at hx
    · rcases List.mem_cons.mp hx with h1 | h2
      · subst h1; simp
      · have := ih (n + 1) x h2
        simp at this ⊢
        omega
    · have := ih (n + 1) x hx
      simp at this ⊢
      omega

theorem nonDecr_cons (a : Nat) (l : List Nat) :
    nonDecr (a :: l) = true ↔
      (∀ b, l.head? = some b → a ≤ b) ∧ nonDecr l = true := by
  cases l with
  | nil => simp [nonDecr]
  | cons b t =>
    simp only [nonDecr, Bool.and_eq_true, decide_eq_true_eq, List.head?_cons]
    constructor
    · rintro ⟨h1, h2⟩
      exact ⟨fun c hc => by simp at hc; omega, h2⟩
    · rintro ⟨h1, h2⟩
      exact ⟨h1 b rfl, h2⟩

theorem nls_nonDecr_append : ∀ (bs : List Nat) (n m : Nat), n + bs.length ≤ m →
    nonDecr (newlineStarts bs n ++ [m]) = true := by
  intro bs
  induction bs with
  | nil => intro n m _; rfl
  | cons b t ih =>
    intro n m hm
    simp only [newlineStarts]
    split
    · rw [List.cons_append, nonDecr_cons]
      refine ⟨?_, ih (n + 1) m (by simp at hm ⊢; omega)⟩
      intro c hc
      cases heq : newlineStarts t (n + 1) with
      | nil => rw [heq] at hc; simp at hc; simp at hm; omega
      | cons x xs =>
        rw [heq] at hc
        simp at hc
        have hx : x ∈ newlineStarts t (n + 1) := by rw [heq]; exact List.mem_cons_self _ _
        have := nls_bounds t (n + 1) x hx
        omega
    · exact ih (n + 1) m (by simp at hm ⊢; omega)

theorem lastB_cons_ne (x : Nat) (l : List Nat) (h : l ≠ []) :
    lastB (x :: l) = lastB l := by
  cases l with
  | nil => exact absurd rfl h
  | cons b t => rfl

theorem lastB_append : ∀ (xs : List Nat) (a : Nat), lastB (xs ++ [a]) = some a := by
  intro xs a
  induction xs with
  | nil => rfl
  | cons x t ih =>
    rw [List.cons_append, lastB_cons_ne x (t ++ [a]) (by simp), ih]

/-- Claim C4 (amended): for every text accepted by `LineMap`
construction (including the empty text), the resulting `line_starts`
(computed over the normalized text) is nondecreasing, its first element
is 0, its last element is `len(text)`, and its length equals
(number of newlines) + 2.  It is not strictly increasing in general:
the final sentinel repeats the previous entry when the text is empty or
ends with a newline. -/
theorem line_starts_shape (text tn : List Nat) (lm : LineMap)
    (hn : LineMap.normalize text = some (tn, lm)) :
    nonDecr lm.line_starts = true ∧
      lm.line_starts.head? = some 0 ∧
      lastB lm.line_starts = some tn.length ∧
      lm.line_starts.length = countNl tn + 2 := by
  obtain ⟨htn, hlm, -⟩ := normalize_some hn
  subst htn
  subst hlm
  refine ⟨?_, rfl, ?_, ?_⟩
  · show nonDecr (lineStartsOf (stripCR text)) = true
    unfold lineStartsOf
    rw [List.cons_append, nonDecr_cons]
    refine ⟨fun b _ => Nat.zero_le b, ?_⟩
    exact nls_nonDecr_append (stripCR text) 0 (stripCR text).length (by omega)
  · exact lastB_append _ _
  · show (lineStartsOf (stripCR text)).length = countNl (stripCR text) + 2
    unfold lineStartsOf
    simp [nls_length]

/-- Claim C4 counterexample: for the text `"\n"`, `line_starts` is
`[0, 1, 1]`, which is not strictly increasing. -/
theorem line_starts_strict_cex :
    LineMap.normalize [10] = some ([10], mkLineMap [10]) ∧
      (mkLineMap [10]).line_starts = [0, 1, 1] ∧
      strIncr (mkLineMap [10]).line_starts = false := by
  refine ⟨by decide, by decide, by decide⟩

/-- Witness for `line_starts_shape` at the text `"a\nb"`. -/
theorem line_starts_shape_witness :
    nonDecr (mkLineMap [97, 10, 98]).line_starts = true ∧
      (mkLineMap [97, 10, 98]).line_starts.head? = some 0 ∧
      lastB (mkLineMap [97, 10, 98]).line_starts = some ([97, 10, 98] : List Nat).length ∧
      (mkLineMap [97, 10, 98]).line_starts.length = countNl [97, 10, 98] + 2 :=
  line_starts_shape [97, 10, 98] [97, 10, 98] (mkLineMap [97, 10, 98]) (by decide)

/-! ## Round-trip machinery: prefix sums and scan shifts -/

theorem flat_length {α : Type} : ∀ ls : List (List α),
    (flat ls).length = sumL (ls.map List.length) := by
  intro ls
  induction ls with
  | nil => rfl
  | cons l t ih => simp [flat, sumL, ih]

theorem flat_mem_of {α : Type} : ∀ (ls : List (List α)) (l : List α) (x : α),
    l ∈ ls → x ∈ l → x ∈ flat ls := by
  intro ls
  induction ls with
  | nil => intro l x h; simp at h
  | cons a t ih =>
    intro l x h hx
    rcases List.mem_cons.mp h with h1 | h2
    · subst h1; exact List.mem_append_left _ hx
    · exact List.mem_append_right _ (ih l x h2 hx)

theorem accum_map_add : ∀ (ns : List Nat) (a k : Nat),
    (accum a ns).map (· + k) = accum (a + k) ns := by
  intro ns
  induction ns with
  | nil => intro a k; rfl
  | cons n t ih =>
    intro a k
    simp only [accum, List.map_cons, ih]
    rw [Nat.add_right_comm]

theorem accum_length : ∀ (ns : List Nat) (a : Nat), (accum a ns).length = ns.length + 1 := by
  intro ns
  induction ns with
  | nil => intro a; rfl
  | cons n t ih => intro a; simp [accum, ih]

theorem accum_getN : ∀ (ns : List Nat) (a i : Nat), i ≤ ns.length →
    getN (accum a ns) i = a + sumL (ns.take i) := by
  intro ns
  induction ns with
  | nil =>
    intro a i hi
    simp at hi
    subst hi
    simp [accum, getN, sumL]
  | cons n t ih =>
    intro a i hi
    cases i with
    | zero => simp [accum, getN, sumL]
    | succ m =>
      simp only [accum, getN, List.take_succ_cons, sumL]
      rw [ih (a + n) m (by simpa using hi)]
      omega

theorem accum_mem_le : ∀ (ns : List Nat) (a x : Nat), x ∈ accum a ns → x ≤ a + sumL ns := by
  intro ns
  induction ns with
  | nil => intro a x h; simp [accum] at h; simp [sumL, h]
  | cons n t ih =>
    intro a x h
    simp only [accum] at h
    rcases List.mem_cons.mp h with h1 | h2
    · simp [h1, sumL]
    · have := ih (a + n) x h2
      simp [sumL]
      omega

theorem accum_head : ∀ (a : Nat) (ns : List Nat), ∃ t, accum a ns = a :: t := by
  intro a ns
  cases ns <;> exact ⟨_, rfl⟩

theorem twl_all : ∀ (l : List Nat) (p : Nat), (∀ x ∈ l, x ≤ p) →
    takeWhileLen p l = l.length := by
  intro l p
  induction l with
  | nil => intro _; rfl
  | cons a t ih =>
    intro h
    simp only [takeWhileLen, List.length_cons]
    rw [if_pos (h a (List.mem_cons_self _ _)), ih (fun x hx => h x (List.mem_cons_of_mem _ hx))]
    omega

theorem twl_select : ∀ (ns : List Nat) (a p l : Nat), l < ns.length →
    a + sumL (ns.take l) ≤ p → p < a + sumL (ns.take (l + 1)) →
    takeWhileLen p (accum a ns) = l + 1 := by
  intro ns
  induction ns with
  | nil => intro a p l hl; simp at hl
  | cons n t ih =>
    intro a p l hl h2 h3
    have hap : a ≤ p := by
      have : 0 ≤ sumL ((n :: t).take l) := Nat.zero_le _
      omega
    simp only [accum, takeWhileLen, if_pos hap]
    cases l with
    | zero =>
      have hpn : p < a + n := by
        simpa [sumL] using h3
      obtain ⟨tl, htl⟩ := accum_head (a + n) t
      rw [htl]
      simp only [takeWhileLen]
      rw [if_neg (by omega)]
    | succ m =>
      have hml : m < t.length := by simpa using hl
      have h2' : (a + n) + sumL (t.take m) ≤ p := by
        simp only [List.take_succ_cons, sumL] at h2
        omega
      have h3' : p < (a + n) + sumL (t.take (m + 1)) := by
        simp only [List.take_succ_cons, sumL] at h3
        omega
      rw [ih (a + n) p m hml h2' h3']
      omega

theorem ld_append : ∀ (xs ys : List Nat) (n : Nat),
    lineDiffs (xs ++ ys) n = lineDiffs xs n ++ lineDiffs ys (n + xs.length) := by
  intro xs
  induction xs with
  | nil => intro ys n; simp [lineDiffs]
  | cons b t ih =>
    intro ys n
    have hlen : n + 1 + t.length = n + (b :: t).length := by simp; omega
    simp only [List.cons_append, lineDiffs, List.append_eq]
    split <;> rw [ih ys (n + 1), hlen] <;> simp

theorem ld_succ : ∀ (xs : List Nat) (n : Nat),
    lineDiffs xs (n + 1) = (lineDiffs xs n).map (fun qd => (qd.1 + 1, qd.2)) := by
  intro xs
  induction xs with
  | nil => intro n; rfl
  | cons b t ih =>
    intro n
    simp only [lineDiffs]
    split
    · simp [ih (n + 1)]
    · exact ih (n + 1)

theorem ld_off : ∀ (xs : List Nat) (n : Nat),
    lineDiffs xs n = (lineDiffs xs 0).map (fun qd => (qd.1 + n, qd.2)) := by
  intro xs n
  induction n with
  | zero => simp
  | succ m ih =>
    rw [ld_succ, ih, List.map_map]
    exact List.map_congr_left (fun qd _ => rfl)

theorem af_append : ∀ (ds es : List (Nat × Nat)) (c : Nat),
    adjustFold c (ds ++ es) = adjustFold (adjustFold c ds) es := by
  intro ds
  induction ds with
  | nil => intro es c; rfl
  | cons qd t ih => intro es c; simp only [List.cons_append, adjustFold, List.append_eq, ih]

theorem af_shift : ∀ (ds : List (Nat × Nat)) (k x : Nat),
    adjustFold (k + x) (ds.map (fun qd => (qd.1 + k, qd.2))) = k + adjustFold x ds := by
  intro ds
  induction ds with
  | nil => intro k x; rfl
  | cons qd t ih =>
    intro k x
    simp only [List.map_cons, adjustFold]
    by_cases h : qd.1 < x
    · rw [if_pos (by omega), if_pos h, ← ih]
      congr 1
      omega
    · rw [if_neg (by omega), if_neg h, ih]

theorem dsb_zero : ∀ ds : List (Nat × Nat), diffSumBelow 0 ds = 0 := by
  intro ds
  cases ds with
  | nil => rfl
  | cons qd t => simp [diffSumBelow]

theorem dsb_shift : ∀ (ds : List (Nat × Nat)) (k x : Nat),
    diffSumBelow (k + x) (ds.map (fun qd => (qd.1 + k, qd.2))) = diffSumBelow x ds := by
  intro ds
  induction ds with
  | nil => intro k x; rfl
  | cons qd t ih =>
    intro k x
    simp only [List.map_cons, diffSumBelow]
    by_cases h : qd.1 < x
    · rw [if_pos (by omega), if_pos h, ih]
    · rw [if_neg (by omega), if_neg h]

/-! ## Line-local round trip -/

theorem chunk_diffs (ch : List Nat) (h : isUtf8Char ch = true) :
    ∃ d, lineDiffs ch 0 = (if d = 0 then [] else [(0, d)]) ∧ d < ch.length := by
  have hld := ld_chunk ch [] 0 h
  simp only [List.append_nil] at hld
  obtain ⟨hk1, hk4⟩ := chunk_len h
  refine ⟨if ch.length = 1 then 0 else if ch.length = 2 then 1 else 2, ?_, ?_⟩
  · rw [hld]
    by_cases h1 : ch.length = 1
    · simp [h1, lineDiffs]
    · by_cases h2 : ch.length = 2 <;> simp [h1, h2, lineDiffs]
  · by_cases h1 : ch.length = 1
    · simp [h1]
    · by_cases h2 : ch.length = 2 <;> simp [h1, h2] <;> omega

theorem boundaries_zero : ∀ cs : List (List Nat), 0 ∈ boundaries cs := by
  intro cs
  cases cs <;> simp [boundaries]

theorem boundaries_le : ∀ (cs : List (List Nat)) (x : Nat), x ∈ boundaries cs →
    x ≤ (flat cs).length := by
  intro cs
  induction cs with
  | nil =>
    intro x hx
    simp [boundaries] at hx
    simp [hx, flat]
  | cons c t ih =>
    intro x hx
    simp only [boundaries] at hx
    rcases List.mem_cons.mp hx with rfl | hx'
    · exact Nat.zero_le _
    · obtain ⟨y, hy, rfl⟩ := List.mem_map.mp hx'
      have := ih y hy
      simp [flat]
      omega

theorem bd_append : ∀ (xs ys : List (List Nat)) (p : Nat),
    p ∈ boundaries (xs ++ ys) →
      p ∈ boundaries xs ∨ ((flat xs).length ≤ p ∧ p - (flat xs).length ∈ boundaries ys) := by
  intro xs
  induction xs with
  | nil =>
    intro ys p hp
    right
    simpa [flat] using hp
  | cons c t ih =>
    intro ys p hp
    simp only [List.cons_append, boundaries] at hp
    rcases List.mem_cons.mp hp with rfl | hp'
    · left
      exact boundaries_zero _
    · obtain ⟨y, hy, rfl⟩ := List.mem_map.mp hp'
      rcases ih ys y hy with h1 | ⟨h2a, h2b⟩
      · left
        simp only [boundaries]
        exact List.mem_cons_of_mem _ (List.mem_map.mpr ⟨y, h1, rfl⟩)
      · right
        constructor
        · simp only [flat, List.length_append]
          omega
        · have heq : y + c.length - (flat (c :: t)).length = y - (flat t).length := by
            simp only [flat, List.length_append]
            omega
          rw [heq]
          exact h2b

theorem line_round : ∀ lcs : List (List Nat), (∀ c ∈ lcs, isUtf8Char c = true) →
    ∀ c ∈ boundaries lcs,
      diffSumBelow c (lineDiffs (flat lcs) 0) ≤ c ∧
        adjustFold (c - diffSumBelow c (lineDiffs (flat lcs) 0)) (lineDiffs (flat lcs) 0) = c := by
  intro lcs
  induction lcs with
  | nil =>
    intro _ c hc
    simp [boundaries] at hc
    subst hc
    simp [flat, lineDiffs, diffSumBelow, adjustFold]
  | cons ch rest ih =>
    intro hv c hc
    have hch : isUtf8Char ch = true := hv ch (List.mem_cons_self _ _)
    have hrest : ∀ x ∈ rest, isUtf8Char x = true := fun x hx => hv x (List.mem_cons_of_mem _ hx)
    simp only [boundaries] at hc
    rcases List.mem_cons.mp hc with rfl | hmem
    · rw [dsb_zero]
      exact ⟨Nat.le_refl 0, by simpa using adjustFold_zero _⟩
    · obtain ⟨c', hc', rfl⟩ := List.mem_map.mp hmem
      obtain ⟨hS', hAF⟩ := ih hrest c' hc'
      obtain ⟨d, hdiff, hdlt⟩ := chunk_diffs ch hch
      obtain ⟨hk1, -⟩ := chunk_len hch
      have hD : lineDiffs (flat (ch :: rest)) 0 =
          lineDiffs ch 0 ++
            (lineDiffs (flat rest) 0).map (fun qd => (qd.1 + ch.length, qd.2)) := by
        show lineDiffs (ch ++ flat rest) 0 = _
        rw [ld_append]
        congr 1
        rw [Nat.zero_add, ld_off]
      have hS : diffSumBelow (c' + ch.length) (lineDiffs (flat (ch :: rest)) 0) =
          d + diffSumBelow c' (lineDiffs (flat rest) 0) := by
        rw [hD]
        by_cases hd0 : d = 0
        · rw [hdiff, if_pos hd0, List.nil_append]
          rw [Nat.add_comm c' ch.length, dsb_shift]
          omega
        · rw [hdiff, if_neg hd0, List.singleton_append]
          simp only [diffSumBelow]
          rw [if_pos (by omega)]
          rw [Nat.add_comm c' ch.length, dsb_shift]
      refine ⟨by rw [hS]; omega, ?_⟩
      rw [hS, hD, af_append]
      have hu : adjustFold
            (c' + ch.length - (d + diffSumBelow c' (lineDiffs (flat rest) 0)))
            (lineDiffs ch 0) =
          ch.length + (c' - diffSumBelow c' (lineDiffs (flat rest) 0)) := by
        by_cases hd0 : d = 0
        · rw [hdiff, if_pos hd0, adjustFold_nil]
          omega
        · rw [hdiff, if_neg hd0]
          simp only [adjustFold]
          rw [if_pos (by omega)]
          omega
      rw [hu, af_shift, hAF]
      omega

/-! ## Line decomposition bridges -/

theorem sl_ne_nil : ∀ bs : List Nat, splitLines bs ≠ [] := by
  intro bs
  cases bs with
  | nil => simp [splitLines]
  | cons b t =>
    simp only [splitLines]
    split
    · simp
    · split <;> simp

theorem sl_flat : ∀ bs : List Nat, flat (splitLines bs) = bs := by
  intro bs
  induction bs with
  | nil => rfl
  | cons b t ih =>
    simp only [splitLines]
    split
    · rename_i hb
      subst hb
      simp [flat, ih]
    · cases hsl : splitLines t with
      | nil => exact absurd hsl (sl_ne_nil t)
      | cons l ls =>
        rw [hsl] at ih
        simp only [flat] at ih ⊢
        simp only [List.cons_append]
        rw [ih]

theorem accum_shift1 (ns : List Nat) (a : Nat) :
    accum (a + 1) ns = (accum a ns).map (· + 1) :=
  (accum_map_add ns a 1).symm

theorem lineStarts_eq_accum : ∀ bs : List Nat,
    lineStartsOf bs = accum 0 ((splitLines bs).map List.length) := by
  intro bs
  induction bs with
  | nil => rfl
  | cons b t ih =>
    simp only [splitLines]
    split
    · rename_i hb
      subst hb
      show lineStartsOf (10 :: t) = accum 0 (([10] :: splitLines t).map List.length)
      have h1 : newlineStarts t 1 = (newlineStarts t 0).map (· + 1) := by
        simpa using nls_succ t 0
      have h2 : accum 1 ((splitLines t).map List.length) =
          (accum 0 ((splitLines t).map List.length)).map (· + 1) := by
        simpa using accum_shift1 ((splitLines t).map List.length) 0
      simp only [List.map_cons, List.length_cons, List.length_nil, accum, Nat.zero_add]
      rw [h2, ← ih]
      unfold lineStartsOf
      simp [newlineStarts, h1]
    · rename_i hb
      cases hsl : splitLines t with
      | nil => exact absurd hsl (sl_ne_nil t)
      | cons l ls =>
        rw [hsl] at ih
        have ih2 : newlineStarts t 0 ++ [t.length] = accum l.length (ls.map List.length) := by
          unfold lineStartsOf at ih
          simp only [List.map_cons, accum, Nat.zero_add, List.cons_append, List.cons.injEq,
            true_and] at ih
          exact ih
        show lineStartsOf (b :: t) = accum 0 (((b :: l) :: ls).map List.length)
        have h1 : newlineStarts t 1 = (newlineStarts t 0).map (· + 1) := by
          simpa using nls_succ t 0
        simp only [List.map_cons, List.length_cons, accum, Nat.zero_add]
        rw [accum_shift1 (ls.map List.length) l.length, ← ih2]
        unfold lineStartsOf
        simp [newlineStarts, hb, h1]

theorem drop_add {α : Type} : ∀ (B : List α) (a k : Nat), B.drop (a + k) = (B.drop a).drop k := by
  intro B
  induction B with
  | nil => intro a k; simp
  | cons x t ih =>
    intro a k
    cases a with
    | zero => simp
    | succ m =>
      have h : m + 1 + k = (m + k) + 1 := by omega
      rw [h]
      simp only [List.drop_succ_cons]
      exact ih m k

theorem bcd_eq : ∀ (LS : List (List Nat)) (a i : Nat) (B : List Nat), B.drop a = flat LS →
    buildCharDiffs B (accum a (LS.map List.length)) i = lineAssoc LS i := by
  intro LS
  induction LS with
  | nil => intro a i B _; rfl
  | cons l ls ih =>
    intro a i B hB
    obtain ⟨tl2, htl2⟩ := accum_head (a + l.length) (ls.map List.length)
    simp only [List.map_cons, accum]
    rw [htl2]
    simp only [buildCharDiffs]
    have hslice : (B.drop a).take (a + l.length - a) = l := by
      rw [hB, show a + l.length - a = l.length from by omega]
      show (l ++ flat ls).take l.length = l
      exact List.take_left _ _
    rw [hslice, ← htl2]
    rw [ih (a + l.length) (i + 1) B (by rw [drop_add, hB]; show (l ++ flat ls).drop l.length = _; exact List.drop_left _ _)]
    rfl

theorem la_keys_lb : ∀ (LS : List (List Nat)) (i j : Nat), j < i →
    alookup j (lineAssoc LS i) = none := by
  intro LS
  induction LS with
  | nil => intro i j _; rfl
  | cons l ls ih =>
    intro i j hj
    simp only [lineAssoc]
    split
    · simpa using ih (i + 1) j (by omega)
    · simp only [List.singleton_append, alookup]
      rw [if_neg (by omega)]
      exact ih (i + 1) j (by omega)

theorem la_lookup : ∀ (LS : List (List Nat)) (i j : Nat), i ≤ j →
    alookup j (lineAssoc LS i) =
      (if lineDiffs (getL LS (j - i)) 0 = [] then none
       else some (lineDiffs (getL LS (j - i)) 0)) := by
  intro LS
  induction LS with
  | nil =>
    intro i j _
    simp [lineAssoc, alookup, getL, lineDiffs]
  | cons l ls ih =>
    intro i j hij
    simp only [lineAssoc]
    by_cases hji : j = i
    · subst hji
      rw [show j - j = 0 from by omega]
      simp only [getL]
      split
      · simpa using la_keys_lb ls (j + 1) j (by omega)
      · simp [alookup]
    · have hij' : i + 1 ≤ j := by omega
      rw [show j - i = (j - (i + 1)) + 1 from by omega]
      simp only [getL]
      split
      · simpa using ih (i + 1) j hij'
      · simp only [List.singleton_append, alookup]
        rw [if_neg (by omega)]
        exact ih (i + 1) j hij'

theorem mk_line_starts (t : List Nat) :
    (mkLineMap t).line_starts = accum 0 ((splitLines t).map List.length) :=
  lineStarts_eq_accum t

theorem mk_char_diffs (t : List Nat) :
    (mkLineMap t).char_diffs = lineAssoc (splitLines t) 0 := by
  show buildCharDiffs t (lineStartsOf t) 0 = lineAssoc (splitLines t) 0
  rw [lineStarts_eq_accum]
  exact bcd_eq (splitLines t) 0 0 t (by simpa using (sl_flat t).symm)

theorem diffsFor_mk (t : List Nat) (j : Nat) :
    (mkLineMap t).diffsFor j = lineDiffs (getL (splitLines t) j) 0 := by
  unfold LineMap.diffsFor
  rw [mk_char_diffs, la_lookup (splitLines t) 0 j (Nat.zero_le j)]
  simp only [Nat.sub_zero]
  by_cases hP : lineDiffs (getL (splitLines t) j) 0 = []
  · rw [if_pos hP]
    exact hP.symm
  · rw [if_neg hP]

theorem getL_len_le : ∀ (LS : List (List Nat)) (j : Nat), LS.length ≤ j → getL LS j = [] := by
  intro LS
  induction LS with
  | nil => intro j _; rfl
  | cons l ls ih =>
    intro j hj
    cases j with
    | zero => simp at hj
    | succ m => exact ih m (by simpa using hj)

theorem slc_ne_nil : ∀ cs : List (List Nat), splitLinesC cs ≠ [] := by
  intro cs
  cases cs with
  | nil => simp [splitLinesC]
  | cons c t =>
    simp only [splitLinesC]
    split
    · simp
    · split <;> simp

theorem slc_flat : ∀ cs : List (List Nat), flat (splitLinesC cs) = cs := by
  intro cs
  induction cs with
  | nil => rfl
  | cons c t ih =>
    simp only [splitLinesC]
    split
    · simp [flat, ih]
    · cases hsl : splitLinesC t with
      | nil => exact absurd hsl (slc_ne_nil t)
      | cons g gs =>
        rw [hsl] at ih
        simp only [flat] at ih ⊢
        simp only [List.cons_append]
        rw [ih]

theorem chunk_no10 (c : List Nat) (h : isUtf8Char c = true) (hne : c ≠ [10]) :
    ∀ b ∈ c, b ≠ 10 := by
  match c with
  | [b] =>
    simp only [isUtf8Char, decide_eq_true_eq] at h
    intro x hx
    simp at hx
    subst hx
    intro hb
    exact hne (by rw [hb])
  | [b, c1] =>
    simp only [isUtf8Char, isCont, Bool.and_eq_true, decide_eq_true_eq] at h
    intro x hx
    simp at hx
    rcases hx with rfl | rfl <;> omega
  | [b, c1, c2] =>
    simp only [isUtf8Char, isCont, Bool.and_eq_true, decide_eq_true_eq] at h
    intro x hx
    simp at hx
    rcases hx with rfl | rfl | rfl <;> omega
  | [b, c1, c2, c3] =>
    simp only [isUtf8Char, isCont, Bool.and_eq_true, decide_eq_true_eq] at h
    intro x hx
    simp at hx
    rcases hx with rfl | rfl | rfl | rfl <;> omega
  | [] => simp [isUtf8Char] at h
  | _ :: _ :: _ :: _ :: _ :: _ => simp [isUtf8Char] at h

theorem sl_append_no10 : ∀ (xs bs : List Nat), (∀ b ∈ xs, b ≠ 10) →
    ∀ l ls, splitLines bs = l :: ls → splitLines (xs ++ bs) = (xs ++ l) :: ls := by
  intro xs
  induction xs with
  | nil => intro bs _ l ls h; simpa using h
  | cons x t ih =>
    intro bs hno l ls h
    have hx : x ≠ 10 := hno x (List.mem_cons_self _ _)
    simp only [List.cons_append, splitLines, if_neg hx, List.append_eq]
    rw [ih bs (fun b hb => hno b (List.mem_cons_of_mem _ hb)) l ls h]

theorem sl_eq_slc : ∀ cs : List (List Nat), (∀ c ∈ cs, isUtf8Char c = true) →
    splitLines (flat cs) = (splitLinesC cs).map flat := by
  intro cs
  induction cs with
  | nil => intro _; rfl
  | cons c t ih =>
    intro hv
    have hc : isUtf8Char c = true := hv c (List.mem_cons_self _ _)
    have ht : ∀ x ∈ t, isUtf8Char x = true := fun x hx => hv x (List.mem_cons_of_mem _ hx)
    simp only [flat, splitLinesC]
    split
    · rename_i h10
      subst h10
      simp only [List.singleton_append, splitLines, List.map_cons, List.nil_append,
        List.append_eq, if_true, eq_self_iff_true]
      rw [ih ht]
      rfl
    · rename_i h10
      cases hslc : splitLinesC t with
      | nil => exact absurd hslc (slc_ne_nil t)
      | cons g gs =>
        have ihr := ih ht
        rw [hslc] at ihr
        simp only [List.map_cons] at ihr ⊢
        rw [sl_append_no10 c (flat t) (chunk_no10 c hc h10) (flat g) (gs.map flat) ihr]
        simp [flat]

theorem getL_map_flat : ∀ (gs : List (List (List Nat))) (l : Nat),
    getL (gs.map flat) l = flat (getG gs l) := by
  intro gs
  induction gs with
  | nil => intro l; cases l <;> rfl
  | cons g t ih =>
    intro l
    cases l with
    | zero => rfl
    | succ m => exact ih m

theorem getG_mem : ∀ (gs : List (List (List Nat))) (l : Nat) (c : List Nat),
    c ∈ getG gs l → c ∈ flat gs := by
  intro gs
  induction gs with
  | nil => intro l c hc; cases l <;> simp [getG] at hc
  | cons g t ih =>
    intro l c hc
    cases l with
    | zero => exact List.mem_append_left _ hc
    | succ m => exact List.mem_append_right _ (ih m c hc)

theorem boundary_locate : ∀ (gs : List (List (List Nat))) (p : Nat),
    p ∈ boundaries (flat gs) → p < sumL (gs.map (fun g => (flat g).length)) →
    ∃ l, l < gs.length ∧ sumL ((gs.map (fun g => (flat g).length)).take l) ≤ p ∧
      p < sumL ((gs.map (fun g => (flat g).length)).take (l + 1)) ∧
      (p - sumL ((gs.map (fun g => (flat g).length)).take l)) ∈ boundaries (getG gs l) := by
  intro gs
  induction gs with
  | nil => intro p _ hp; simp [sumL] at hp
  | cons g t ih =>
    intro p hb hp
    by_cases hlt : p < (flat g).length
    · refine ⟨0, by simp, by simp [sumL], ?_, ?_⟩
      · simp [sumL]
        omega
      · have := bd_append g (flat t) p (by simpa [flat] using hb)
        rcases this with h1 | ⟨h2a, -⟩
        · simpa [getG] using h1
        · omega
    · have hk : (flat g).length ≤ p := by omega
      have hpk : p - (flat g).length ∈ boundaries (flat t) := by
        have := bd_append g (flat t) p (by simpa [flat] using hb)
        rcases this with h1 | ⟨-, h2b⟩
        · have hle := boundaries_le g p h1
          have hpe : p = (flat g).length := by omega
          rw [hpe]
          simpa using boundaries_zero (flat t)
        · exact h2b
      have hp' : p - (flat g).length < sumL (t.map (fun g => (flat g).length)) := by
        simp only [List.map_cons, sumL] at hp
        omega
      obtain ⟨l', hl1, hl2, hl3, hl4⟩ := ih (p - (flat g).length) hpk hp'
      refine ⟨l' + 1, by simpa using hl1, ?_, ?_, ?_⟩
      · simp only [List.map_cons, List.take_succ_cons, sumL]
        omega
      · simp only [List.map_cons, List.take_succ_cons, sumL]
        omega
      · simp only [List.map_cons, List.take_succ_cons, sumL, getG]
        have harith : p - ((flat g).length + sumL ((t.map (fun g => (flat g).length)).take l')) =
            p - (flat g).length - sumL ((t.map (fun g => (flat g).length)).take l') := by
          omega
        rw [harith]
        exact hl4

theorem round_trip_mk (cs : List (List Nat)) (hv : ∀ c ∈ cs, isUtf8Char c = true)
    (p : Nat) (hp : p ∈ boundaries cs) :
    (mkLineMap (flat cs)).pos ((mkLineMap (flat cs)).line_col p).1
      ((mkLineMap (flat cs)).line_col p).2 = p := by
  have hple : p ≤ (flat cs).length := boundaries_le cs p hp
  have hls : (mkLineMap (flat cs)).line_starts =
      accum 0 ((splitLines (flat cs)).map List.length) := mk_line_starts _
  have hdf : ∀ j, (mkLineMap (flat cs)).diffsFor j =
      lineDiffs (getL (splitLines (flat cs)) j) 0 := diffsFor_mk _
  have hsum : sumL ((splitLines (flat cs)).map List.length) = (flat cs).length := by
    rw [← flat_length, sl_flat]
  simp only [LineMap.line_col, LineMap.pos]
  rw [hls]
  by_cases hpt : p = (flat cs).length
  · subst hpt
    have htwl : takeWhileLen (flat cs).length
        (accum 0 ((splitLines (flat cs)).map List.length)) =
        ((splitLines (flat cs)).map List.length).length + 1 := by
      rw [twl_all, accum_length]
      intro x hx
      have := accum_mem_le _ 0 x hx
      omega
    rw [htwl]
    simp only [Nat.add_sub_cancel]
    have hgetN : getN (accum 0 ((splitLines (flat cs)).map List.length))
        ((splitLines (flat cs)).map List.length).length = (flat cs).length := by
      rw [accum_getN _ 0 _ (le_refl _), List.take_length]
      simpa using hsum
    rw [hgetN]
    have hdfj : (mkLineMap (flat cs)).diffsFor
        ((splitLines (flat cs)).map List.length).length = [] := by
      rw [hdf, getL_len_le]
      · rfl
      · simp
    rw [hdfj]
    simp [diffSumBelow, adjustFold]
  · have hne : p < (flat cs).length := by omega
    have hG2 : splitLines (flat cs) = (splitLinesC cs).map flat := sl_eq_slc cs hv
    have hlens : (splitLines (flat cs)).map List.length =
        (splitLinesC cs).map (fun g => (flat g).length) := by
      rw [hG2, List.map_map]
      rfl
    have hflatc : flat (splitLinesC cs) = cs := slc_flat cs
    obtain ⟨l, hl1, hl2, hl3, hl4⟩ := boundary_locate (splitLinesC cs) p
      (by rw [hflatc]; exact hp) (by rw [← hlens, hsum]; exact hne)
    have hlenlen : ((splitLines (flat cs)).map List.length).length =
        (splitLinesC cs).length := by
      rw [hlens, List.length_map]
    have htwl : takeWhileLen p (accum 0 ((splitLines (flat cs)).map List.length)) = l + 1 := by
      apply twl_select
      · rw [hlenlen]; exact hl1
      · rw [hlens]; simpa using hl2
      · rw [hlens]; simpa using hl3
    rw [htwl]
    simp only [Nat.add_sub_cancel]
    have hgetN : getN (accum 0 ((splitLines (flat cs)).map List.length)) l =
        sumL (((splitLinesC cs).map (fun g => (flat g).length)).take l) := by
      rw [accum_getN _ 0 l (by rw [hlenlen]; omega), hlens]
      simp
    rw [hgetN]
    have hdfl : (mkLineMap (flat cs)).diffsFor l =
        lineDiffs (flat (getG (splitLinesC cs) l)) 0 := by
      rw [hdf, hG2, getL_map_flat]
    rw [hdfl]
    obtain ⟨hdsb, haf⟩ := line_round (getG (splitLinesC cs) l)
      (fun c hc => hv c (by rw [← hflatc]; exact getG_mem _ l c hc)) _ hl4
    rw [haf]
    omega

/-- Claim C3: for every `LineMap` built by `normalize` from a text whose
normalized form is valid UTF-8 (given as its codepoint chunk
decomposition): (a) for every byte offset `p` in `[0, len]` lying on a
codepoint boundary, `pos` applied to `line_col p` returns `p`; and
(b) for every valid `(line, col)` position within the text — one that
`line_col` assigns to some codepoint boundary — `line_col` applied to
`pos line col` returns `(line, col)`. -/
theorem line_col_pos_round_trip (text tn : List Nat) (lm : LineMap) (cs : List (List Nat))
    (hn : LineMap.normalize text = some (tn, lm))
    (hc : tn = flat cs) (hv : ∀ c ∈ cs, isUtf8Char c = true) :
    (∀ p ∈ boundaries cs, lm.pos (lm.line_col p).1 (lm.line_col p).2 = p) ∧
      (∀ line col, (∃ p, p ∈ boundaries cs ∧ lm.line_col p = (line, col)) →
        lm.line_col (lm.pos line col) = (line, col)) := by
  obtain ⟨htn, hlm, -⟩ := normalize_some hn
  have hlm' : lm = mkLineMap (flat cs) := by rw [hlm, ← htn, hc]
  subst hlm'
  constructor
  · intro p hp
    exact round_trip_mk cs hv p hp
  · rintro line col ⟨p, hp, hlc⟩
    have h := round_trip_mk cs hv p hp
    rw [hlc] at h
    simp only at h
    rw [h, hlc]

/-- Witness for `line_col_pos_round_trip` on the text `"a\nℝ"`:
offset 5 (the end of text) round-trips through `line_col` and `pos`, and
the position `(1, 0)` (start of the second line) round-trips through
`pos` and `line_col`. -/
theorem line_col_pos_round_trip_witness :
    (mkLineMap [97, 10, 226, 132, 157]).pos
        ((mkLineMap [97, 10, 226, 132, 157]).line_col 5).1
        ((mkLineMap [97, 10, 226, 132, 157]).line_col 5).2 = 5 ∧
      (mkLineMap [97, 10, 226, 132, 157]).line_col
        ((mkLineMap [97, 10, 226, 132, 157]).pos 1 0) = (1, 0) :=
  ⟨(line_col_pos_round_trip [97, 10, 226, 132, 157] [97, 10, 226, 132, 157]
      (mkLineMap [97, 10, 226, 132, 157]) [[97], [10], [226, 132, 157]]
      (by decide) (by decide) (by decide)).1 5 (by decide),
   (line_col_pos_round_trip [97, 10, 226, 132, 157] [97, 10, 226, 132, 157]
      (mkLineMap [97, 10, 226, 132, 157]) [[97], [10], [226, 132, 157]]
      (by decide) (by decide) (by decide)).2 1 0 ⟨2, by decide, by decide⟩⟩

end NilVfs
